import Mathlib

/-!
Verification of the tiny recursive-descent parser/evaluator repository
(`runner.py` and `parser.py`).  The lexer (a shallow embedding of the plex
lexicon built in `create_scanner`) and the two parsers are translated into
executable Lean definitions; the claims about the repository are then
settled as theorems about these definitions.
-/

set_option maxHeartbeats 1000000

deriving instance DecidableEq for Except

namespace Mini

/-- Token kinds, as the parser sees them: `self.la` in the Python code is the
plex token kind (the matched text itself for plex TEXT tokens, the names
BINARY_NUM and ID for the two named patterns, Python None at end of input).
`bad` stands for the position of an unrecognized character (a plex scan
error raised when that token is fetched). -/
inductive Kind where
  | lpar | rpar | eqTok | kwPrint | kwAnd | kwOr | kwXor | binNum | idTok | bad
deriving DecidableEq, Repr

/-- Tokens: kind plus, for `BINARY_NUM` and `ID`, the matched text
(`self.val`).  `badChar` marks the point where the plex scanner fails on an
unrecognized character; fetching it raises the `PlexError`. -/
inductive Tok where
  | lpar | rpar | eqTok | kwPrint | kwAnd | kwOr | kwXor
  | num (s : List Char) | ident (s : List Char)
  | badChar
deriving DecidableEq, Repr

def Tok.kind : Tok → Kind
  | .lpar => .lpar
  | .rpar => .rpar
  | .eqTok => .eqTok
  | .kwPrint => .kwPrint
  | .kwAnd => .kwAnd
  | .kwOr => .kwOr
  | .kwXor => .kwXor
  | .num _ => .binNum
  | .ident _ => .idTok
  | .badChar => .bad

/-- Lookahead kind of the parser, `self.la` (`none` stands for the Python
None at end of input). -/
def laKind (ts : List Tok) : Option Kind := ts.head?.map Tok.kind

def kindName : Kind → String
  | .lpar => "("
  | .rpar => ")"
  | .eqTok => "="
  | .kwPrint => "print"
  | .kwAnd => "and"
  | .kwOr => "or"
  | .kwXor => "xor"
  | .binNum => "BINARY_NUM"
  | .idTok => "ID"
  | .bad => "?"

def laName (ts : List Tok) : String :=
  match laKind ts with
  | none => "None"
  | some k => kindName k

/-- Value of a binary-digit string, as the int conversion with base two
computes it. -/
def binVal (s : List Char) : Nat :=
  s.foldl (fun a c => 2 * a + (if c = '1' then 1 else 0)) 0

/-- Binary digits of `n`, most significant first, empty for `0`
(helper for the binary formatting done by print).  The first argument is structural
fuel; `n` itself is always enough. -/
def binDigitsAux : Nat → Nat → List Char
  | _, 0 => []
  | 0, _ + 1 => []
  | f + 1, n + 1 =>
      binDigitsAux f ((n + 1) / 2) ++ [if (n + 1) % 2 = 1 then '1' else '0']

def binDigits (n : Nat) : List Char := binDigitsAux n n

/-- Binary formatting as the print statement performs it: minimal binary
digits, a single zero digit for zero. -/
def toBinChars (n : Nat) : List Char :=
  if n = 0 then ['0'] else binDigits n

end Mini

namespace RunnerPy
/-!  Shallow embedding of `runner.py`.  Each grammar procedure takes the
remaining token stream (whose head is the lookahead `self.la`) and fuel for
the recursion; the fuel bound chosen by the entry points is always
sufficient.  `while` loops are embedded as the tail-recursive `…Loop`
functions. -/

open Mini

/-- Python values flowing through the evaluator: an `int`, or `None`
(the fall-through result of the parenthesis and ID branches of atom,
which have no return statement). -/
abbrev PyVal := Option Nat

/-- Terminal conditions: `ParseError(msg)`, an uncaught `TypeError` from
using `None` as an integer, a `PlexError` from the scanner, or fuel
exhaustion (never reached from the entry points). -/
inductive Err where
  | parseErr (msg : String)
  | typeErr
  | scanErr
  | fuelOut
deriving DecidableEq, Repr

/-- The environment `self.list`: insertion-ordered mapping from variable
name to value, reassignment overwrites in place (a Python dict). -/
abbrev Env := List (List Char × PyVal)

def envInsert (e : Env) (x : List Char) (v : PyVal) : Env :=
  if (e.find? (fun p => p.1 = x)).isSome then
    e.map (fun p => if p.1 = x then (x, v) else p)
  else
    e ++ [(x, v)]

/-- Bitwise conjunction on Python values: a None on either side raises
`TypeError`. -/
def pyAnd : PyVal → PyVal → Except Err PyVal
  | some a, some b => .ok (some (a &&& b))
  | _, _ => .error .typeErr

def pyOr : PyVal → PyVal → Except Err PyVal
  | some a, some b => .ok (some (a ||| b))
  | _, _ => .error .typeErr

def pyXor : PyVal → PyVal → Except Err PyVal
  | some a, some b => .ok (some (a ^^^ b))
  | _, _ => .error .typeErr

/-- The match primitive: if the lookahead has the expected kind, consume it
and fetch the next lookahead from the lexer (fetching an unrecognized
character raises the PlexError of the scanner at this point); otherwise
raise a ParseError reporting the found and expected kinds. -/
def pmatch (k : Kind) (ts : List Tok) : Except Err (List Tok) :=
  match ts with
  | t :: rest =>
      if t.kind = k then
        if rest.head? = some Tok.badChar then .error .scanErr else .ok rest
      else
        .error (.parseErr ("found " ++ laName ts ++ " instead of " ++ kindName k))
  | [] => .error (.parseErr ("found None instead of " ++ kindName k))

mutual

/-- The expr procedure: a term, then the xor tail, then the explicit
follow-set check. -/
def expr : Nat → List Tok → Except Err (PyVal × List Tok)
  | 0, _ => .error .fuelOut
  | f + 1, ts =>
    if laKind ts = some .lpar ∨ laKind ts = some .idTok ∨ laKind ts = some .binNum then do
      let (v, ts1) ← term f ts
      let (v2, ts2) ← exprLoop f v ts1
      if laKind ts2 = some .rpar ∨ laKind ts2 = some .idTok ∨
          laKind ts2 = some .kwPrint ∨ laKind ts2 = none then
        pure (v2, ts2)
      else
        throw (.parseErr "in expr: XOR operator expected")
    else
      throw (.parseErr "in expr: (, id or binary number expected")

/-- The while loop consuming xor operators in `expr`. -/
def exprLoop : Nat → PyVal → List Tok → Except Err (PyVal × List Tok)
  | 0, _, _ => .error .fuelOut
  | f + 1, v, ts =>
    if laKind ts = some .kwXor then do
      let ts1 ← pmatch .kwXor ts
      let (t2, ts2) ← term f ts1
      let v2 ← pyXor v t2
      exprLoop f v2 ts2
    else
      pure (v, ts)

def term : Nat → List Tok → Except Err (PyVal × List Tok)
  | 0, _ => .error .fuelOut
  | f + 1, ts =>
    if laKind ts = some .lpar ∨ laKind ts = some .idTok ∨ laKind ts = some .binNum then do
      let (v, ts1) ← factor f ts
      let (v2, ts2) ← termLoop f v ts1
      if laKind ts2 = some .rpar ∨ laKind ts2 = some .kwXor ∨
          laKind ts2 = some .idTok ∨ laKind ts2 = some .kwPrint ∨ laKind ts2 = none then
        pure (v2, ts2)
      else
        throw (.parseErr "in term: OR operator expected")
    else
      throw (.parseErr "in term: (, id or binary number expected")

/-- The while loop consuming or operators in `term`. -/
def termLoop : Nat → PyVal → List Tok → Except Err (PyVal × List Tok)
  | 0, _, _ => .error .fuelOut
  | f + 1, v, ts =>
    if laKind ts = some .kwOr then do
      let ts1 ← pmatch .kwOr ts
      let (f2, ts2) ← factor f ts1
      let v2 ← pyOr v f2
      termLoop f v2 ts2
    else
      pure (v, ts)

def factor : Nat → List Tok → Except Err (PyVal × List Tok)
  | 0, _ => .error .fuelOut
  | f + 1, ts =>
    if laKind ts = some .lpar ∨ laKind ts = some .idTok ∨ laKind ts = some .binNum then do
      let (v, ts1) ← atom f ts
      let (v2, ts2) ← factorLoop f v ts1
      if laKind ts2 = some .rpar ∨ laKind ts2 = some .kwOr ∨ laKind ts2 = some .kwXor ∨
          laKind ts2 = some .idTok ∨ laKind ts2 = some .kwPrint ∨ laKind ts2 = none then
        pure (v2, ts2)
      else
        throw (.parseErr "in factor: AND operator expected")
    else
      throw (.parseErr "in factor: (, id or binary number expected")

/-- The while loop consuming and operators in `factor`; the source reads
`atom2 = self.factor()`, so the right operand is the recursive `factor`
call, not a single `atom`. -/
def factorLoop : Nat → PyVal → List Tok → Except Err (PyVal × List Tok)
  | 0, _, _ => .error .fuelOut
  | f + 1, v, ts =>
    if laKind ts = some .kwAnd then do
      let ts1 ← pmatch .kwAnd ts
      let (a2, ts2) ← factor f ts1
      let v2 ← pyAnd v a2
      factorLoop f v2 ts2
    else
      pure (v, ts)

/-- The atom procedure: the parenthesis branch computes
`expression = self.expr()` but has no return statement, and the ID branch
stores `varname = self.val` without consulting `self.list` and also has no
return; both therefore produce Python None.  Only the BINARY_NUM branch
returns a value. -/
def atom : Nat → List Tok → Except Err (PyVal × List Tok)
  | 0, _ => .error .fuelOut
  | f + 1, ts =>
    match ts with
    | Tok.lpar :: _ => do
        let ts1 ← pmatch .lpar ts
        let (_, ts2) ← expr f ts1
        let ts3 ← pmatch .rpar ts2
        pure (none, ts3)
    | Tok.ident _ :: _ => do
        let ts1 ← pmatch .idTok ts
        pure (none, ts1)
    | Tok.num s :: _ => do
        let ts1 ← pmatch .binNum ts
        pure (some (binVal s), ts1)
    | _ => throw (.parseErr "in atom: (, id or binary number expected")

end

/-- Result of `stmt_list`: on failure it reports the error together with the
environment and the output lines accumulated up to that point. -/
inductive LRes where
  | ok (e : Env) (outs : List (List Char))
  | err (er : Err) (e : Env) (outs : List (List Char))
deriving DecidableEq, Repr

/-- The stmt procedure: assignment binds the variable only after the whole
expression evaluated; print formats in binary, which raises `TypeError`
on None. -/
def stmt (fuel : Nat) (e : Env) (ts : List Tok) :
    Except Err (Env × List (List Char) × List Tok) :=
  match fuel with
  | 0 => .error .fuelOut
  | f + 1 =>
    match ts with
    | Tok.ident x :: _ => do
        let ts1 ← pmatch .idTok ts
        let ts2 ← pmatch .eqTok ts1
        let (v, ts3) ← expr f ts2
        pure (envInsert e x v, [], ts3)
    | _ =>
      if laKind ts = some .kwPrint then do
        let ts1 ← pmatch .kwPrint ts
        let (v, ts2) ← expr f ts1
        match v with
        | some n => pure (e, [toBinChars n], ts2)
        | none => throw .typeErr
      else
        throw (.parseErr "in stmt: id or print expected")

/-- The statement list: statements run left to right; an error carries the
environment and outputs already committed. -/
def stmtList (fuel : Nat) (e : Env) (ts : List Tok) : LRes :=
  match fuel with
  | 0 => .err .fuelOut e []
  | f + 1 =>
    if laKind ts = some .idTok ∨ laKind ts = some .kwPrint then
      match stmt f e ts with
      | .error er => .err er e []
      | .ok (e1, out, ts1) =>
        match stmtList f e1 ts1 with
        | .ok e2 outs => .ok e2 (out ++ outs)
        | .err er e2 outs => .err er e2 (out ++ outs)
    else if laKind ts = none then
      .ok e []
    else
      .err (.parseErr "stmt_list: id or print expected") e []

end RunnerPy

namespace Mini
/-!  Shallow embedding of the plex lexicon built by `create_scanner`.
plex picks, at each position, the longest match among the lexicon
patterns, earlier patterns winning ties, which is exactly what
`pickBest` over the per-pattern maximal match lengths computes. -/

def isSpace (c : Char) : Bool := c = ' ' || c = '\n' || c = '\t'

def isBinDigit (c : Char) : Bool := c = '0' || c = '1'

/-- The letter range pattern of the lexicon. -/
def isLetter (c : Char) : Bool :=
  ('a' ≤ c && c ≤ 'z') || ('A' ≤ c && c ≤ 'Z')

/-- The decimal digit range pattern of the lexicon. -/
def isDecDigit (c : Char) : Bool := '0' ≤ c && c ≤ '9'

def isIdentCont (c : Char) : Bool := isLetter c || isDecDigit c

/-- Match length of `plex.Any`-style single-character patterns. -/
def singleLen (p : Char → Bool) : List Char → Option Nat
  | c :: _ => if p c then some 1 else none
  | [] => none

/-- Match length of `plex.Str(w)`. -/
def litLen (w : List Char) (cs : List Char) : Option Nat :=
  if w.isPrefixOf cs then some w.length else none

/-- Length of the maximal run of characters satisfying `p`. -/
def runLen (p : Char → Bool) : List Char → Nat
  | c :: rest => if p c then runLen p rest + 1 else 0
  | [] => 0

/-- Match length of `plex.Rep1(binaryDigit)`: maximal munch, at least one
digit. -/
def binNumLen (cs : List Char) : Option Nat :=
  if runLen isBinDigit cs = 0 then none else some (runLen isBinDigit cs)

/-- Match length of `name = letter + plex.Rep(letter|decimalDigit)`. -/
def nameLen : List Char → Option Nat
  | c :: rest => if isLetter c then some (runLen isIdentCont rest + 1) else none
  | [] => none

def pchars : List Char := ['p', 'r', 'i', 'n', 't']
def achars : List Char := ['a', 'n', 'd']
def ochars : List Char := ['o', 'r']
def xchars : List Char := ['x', 'o', 'r']

/-- The per-pattern match lengths, in lexicon order: space, `(`, `)`,
`=`, `print`, binary number, `and`, `or`, `xor`, identifier (last, so that
keywords are preferred on ties). -/
def matchLens (cs : List Char) : List (Option Nat) :=
  [ singleLen isSpace cs,
    litLen ['('] cs,
    litLen [')'] cs,
    litLen ['='] cs,
    litLen pchars cs,
    binNumLen cs,
    litLen achars cs,
    litLen ochars cs,
    litLen xchars cs,
    nameLen cs ]

/-- Longest match, earliest pattern winning ties: returns the pattern index
and the match length. -/
def pickBest : List (Option Nat) → Option (Nat × Nat)
  | [] => none
  | none :: ms => (pickBest ms).map (fun p => (p.1 + 1, p.2))
  | some l :: ms =>
    match pickBest ms with
    | some (j, l') => if l < l' then some (j + 1, l') else some (0, l)
    | none => some (0, l)

inductive ScanRes where
  | eof
  | skip (rest : List Char)
  | tok (t : Tok) (rest : List Char)
  | bad
deriving DecidableEq, Repr

/-- Build the token for the winning lexicon entry (`plex.IGNORE` for space,
`plex.TEXT` for the literal patterns, named tokens for `BINARY_NUM` and
`ID`). -/
def mkTok (i : Nat) (text rest : List Char) : ScanRes :=
  match i with
  | 0 => .skip rest
  | 1 => .tok .lpar rest
  | 2 => .tok .rpar rest
  | 3 => .tok .eqTok rest
  | 4 => .tok .kwPrint rest
  | 5 => .tok (.num text) rest
  | 6 => .tok .kwAnd rest
  | 7 => .tok .kwOr rest
  | 8 => .tok .kwXor rest
  | 9 => .tok (.ident text) rest
  | _ => .bad

/-- One step of `scanner.read()`: longest match over the lexicon, a scan
error if no pattern matches a nonempty remainder. -/
def scanStep (cs : List Char) : ScanRes :=
  match pickBest (matchLens cs) with
  | some (i, l) => mkTok i (cs.take l) (cs.drop l)
  | none => if cs.isEmpty then .eof else .bad

/-- The token stream of the input.  A scan error is represented by a final
`Tok.badChar`: the parser pulls tokens on demand, so the `PlexError` is
raised only when that position is fetched as the lookahead.  Fuel
`cs.length + 1` is always sufficient (every step consumes at least one
character); `none` is fuel exhaustion. -/
def tokenize : Nat → List Char → Option (List Tok)
  | 0, _ => none
  | f + 1, cs =>
    match scanStep cs with
    | .eof => some []
    | .skip rest => tokenize f rest
    | .tok t rest => (tokenize f rest).map (t :: ·)
    | .bad => some [Tok.badChar]

end Mini

namespace RunnerPy

open Mini

/-- Observable outcome of the `runner.py` program on one input: the lines
printed by executed `print` statements, followed by normal termination, a
`Scanner Error` banner, a `Parser Error` banner, or an uncaught `TypeError`
(the interpreter crash caused by the valueless atom branches). -/
inductive Outcome where
  | finished (outs : List (List Char))
  | scannerError (outs : List (List Char))
  | parserError (msg : String) (outs : List (List Char))
  | typeError (outs : List (List Char))
  | fuelOut
deriving DecidableEq, Repr

/-- The whole program: scan (pull-based, modelled by the `badChar` marker),
`parse` = `create_scanner` (initial lookahead fetch) plus `stmt_list`, with
the top-level handlers for `PlexError` and `ParseError`; a `TypeError` is
caught by neither. -/
def runMain (cs : List Char) : Outcome :=
  match tokenize (cs.length + 1) cs with
  | none => .fuelOut
  | some toks =>
    if toks.head? = some Tok.badChar then .scannerError []
    else
      match stmtList (10 * toks.length + 10) [] toks with
      | .ok _ outs => .finished outs
      | .err (.parseErr m) _ outs => .parserError m outs
      | .err .typeErr _ outs => .typeError outs
      | .err .scanErr _ outs => .scannerError outs
      | .err .fuelOut _ _ => .fuelOut

end RunnerPy

namespace ParserPy
/-!  Shallow embedding of `parser.py` (pure syntax checking: its grammar
procedures compute no values, keep no environment, and print nothing).
It mirrors the lexer and match primitive of `runner.py`, but its `expr` reads
`self.term_tail` without the call parentheses — a no-op attribute access —
so `term_tail` is never invoked and no procedure ever consumes an `xor`
token.  The embedding is faithful for token streams without the `badChar`
scan-error marker. -/

open Mini

inductive PErr where
  | parseErr (msg : String)
  | fuelOut
deriving DecidableEq, Repr

def pmatch (k : Kind) (ts : List Tok) : Except PErr (List Tok) :=
  match ts with
  | t :: rest =>
      if t.kind = k then .ok rest
      else .error (.parseErr ("found " ++ laName ts ++ " instead of " ++ kindName k))
  | [] => .error (.parseErr ("found None instead of " ++ kindName k))

mutual

/-- The expr procedure: calls `term`, then evaluates the expression
`self.term_tail` without calling it (the source lacks the call
parentheses), so the tail is skipped. -/
def expr : Nat → List Tok → Except PErr (List Tok)
  | 0, _ => .error .fuelOut
  | f + 1, ts =>
    if laKind ts = some .lpar ∨ laKind ts = some .idTok ∨ laKind ts = some .binNum then
      term f ts
    else
      .error (.parseErr "in expr: (, id or binary number expected")

/-- Dead code: `termTail` is defined in the source but never called. -/
def termTail : Nat → List Tok → Except PErr (List Tok)
  | 0, _ => .error .fuelOut
  | f + 1, ts =>
    if laKind ts = some .kwXor then do
      let ts1 ← pmatch .kwXor ts
      let ts2 ← term f ts1
      termTail f ts2
    else if laKind ts = some .rpar ∨ laKind ts = some .idTok ∨
        laKind ts = some .kwPrint ∨ laKind ts = none then
      .ok ts
    else
      .error (.parseErr "in term_tail: xor, rpar, id or print expected")

def term : Nat → List Tok → Except PErr (List Tok)
  | 0, _ => .error .fuelOut
  | f + 1, ts =>
    if laKind ts = some .lpar ∨ laKind ts = some .idTok ∨ laKind ts = some .binNum then do
      let ts1 ← factor f ts
      factorTail f ts1
    else
      .error (.parseErr "in term: (, id or binary number expected")

def factorTail : Nat → List Tok → Except PErr (List Tok)
  | 0, _ => .error .fuelOut
  | f + 1, ts =>
    if laKind ts = some .kwOr then do
      let ts1 ← pmatch .kwOr ts
      let ts2 ← factor f ts1
      factorTail f ts2
    else if laKind ts = some .rpar ∨ laKind ts = some .kwXor ∨
        laKind ts = some .idTok ∨ laKind ts = some .kwPrint ∨ laKind ts = none then
      .ok ts
    else
      .error (.parseErr "in factor_tail: or, rPar, xor, id or print expected")

def factor : Nat → List Tok → Except PErr (List Tok)
  | 0, _ => .error .fuelOut
  | f + 1, ts =>
    if laKind ts = some .lpar ∨ laKind ts = some .idTok ∨ laKind ts = some .binNum then do
      let ts1 ← atom f ts
      atomTail f ts1
    else
      .error (.parseErr "in factor: (, id or binary number expected")

def atomTail : Nat → List Tok → Except PErr (List Tok)
  | 0, _ => .error .fuelOut
  | f + 1, ts =>
    if laKind ts = some .kwAnd then do
      let ts1 ← pmatch .kwAnd ts
      let ts2 ← atom f ts1
      atomTail f ts2
    else if laKind ts = some .rpar ∨ laKind ts = some .kwOr ∨ laKind ts = some .kwXor ∨
        laKind ts = some .idTok ∨ laKind ts = some .kwPrint ∨ laKind ts = none then
      .ok ts
    else
      .error (.parseErr "in atom_tail: and, ), or, xor, id or print expected")

def atom : Nat → List Tok → Except PErr (List Tok)
  | 0, _ => .error .fuelOut
  | f + 1, ts =>
    if laKind ts = some .lpar then do
      let ts1 ← pmatch .lpar ts
      let ts2 ← expr f ts1
      pmatch .rpar ts2
    else if laKind ts = some .idTok then
      pmatch .idTok ts
    else if laKind ts = some .binNum then
      pmatch .binNum ts
    else
      .error (.parseErr "in atom: (, id or binary number expected")

end

def stmt : Nat → List Tok → Except PErr (List Tok)
  | 0, _ => .error .fuelOut
  | f + 1, ts =>
    if laKind ts = some .idTok then do
      let ts1 ← pmatch .idTok ts
      let ts2 ← pmatch .eqTok ts1
      expr f ts2
    else if laKind ts = some .kwPrint then do
      let ts1 ← pmatch .kwPrint ts
      expr f ts1
    else
      .error (.parseErr "in stmt: id or print expected")

def stmtList : Nat → List Tok → Except PErr (List Tok)
  | 0, _ => .error .fuelOut
  | f + 1, ts =>
    if laKind ts = some .idTok ∨ laKind ts = some .kwPrint then do
      let ts1 ← stmt f ts
      stmtList f ts1
    else if laKind ts = none then
      .ok ts
    else
      .error (.parseErr "stmt_list: id or print expected")

/-- Entry point of `parser.py`, on an already-scanned token stream. -/
def parse (ts : List Tok) : Except PErr (List Tok) :=
  stmtList (10 * ts.length + 10) ts

/-- The consumption invariant of the reachable `parser.py` procedures
(`term_tail` is excluded: `expr` names it without calling it, so it is
dead code): a successful parse of any nonterminal consumes a prefix that
contains no xor token, because the match call for xor is unreachable. -/
def POkInv (f : Nat) : Prop :=
  (∀ ts ts', atom f ts = .ok ts' → ∃ pre, ts = pre ++ ts' ∧ pre ≠ [] ∧ Tok.kwXor ∉ pre) ∧
  (∀ ts ts', atomTail f ts = .ok ts' → ∃ pre, ts = pre ++ ts' ∧ Tok.kwXor ∉ pre) ∧
  (∀ ts ts', factor f ts = .ok ts' → ∃ pre, ts = pre ++ ts' ∧ pre ≠ [] ∧ Tok.kwXor ∉ pre) ∧
  (∀ ts ts', factorTail f ts = .ok ts' → ∃ pre, ts = pre ++ ts' ∧ Tok.kwXor ∉ pre) ∧
  (∀ ts ts', term f ts = .ok ts' → ∃ pre, ts = pre ++ ts' ∧ pre ≠ [] ∧ Tok.kwXor ∉ pre) ∧
  (∀ ts ts', expr f ts = .ok ts' → ∃ pre, ts = pre ++ ts' ∧ pre ≠ [] ∧ Tok.kwXor ∉ pre) ∧
  (∀ ts ts', stmt f ts = .ok ts' → ∃ pre, ts = pre ++ ts' ∧ pre ≠ [] ∧ Tok.kwXor ∉ pre) ∧
  (∀ ts ts', stmtList f ts = .ok ts' → ts' = [] ∧ Tok.kwXor ∉ ts)

/-- Fuel sufficiency: with fuel exceeding ten times the remaining stream
length plus the nonterminal depth, no procedure runs out of fuel. -/
def PSuffInv (f : Nat) : Prop :=
  (∀ ts, 10 * ts.length + 1 < f → atom f ts ≠ .error .fuelOut) ∧
  (∀ ts, 10 * ts.length + 2 < f → atomTail f ts ≠ .error .fuelOut) ∧
  (∀ ts, 10 * ts.length + 3 < f → factor f ts ≠ .error .fuelOut) ∧
  (∀ ts, 10 * ts.length + 4 < f → factorTail f ts ≠ .error .fuelOut) ∧
  (∀ ts, 10 * ts.length + 5 < f → term f ts ≠ .error .fuelOut) ∧
  (∀ ts, 10 * ts.length + 7 < f → expr f ts ≠ .error .fuelOut) ∧
  (∀ ts, 10 * ts.length + 8 < f → stmt f ts ≠ .error .fuelOut) ∧
  (∀ ts, 10 * ts.length + 9 < f → stmtList f ts ≠ .error .fuelOut)


end ParserPy

namespace Mini

/-- String with leading zeros stripped, but at least one digit (a single
zero digit for a string of zeros): the output shape of the print claims. -/
def stripZeros (s : List Char) : List Char :=
  let t := s.dropWhile (fun c => c = '0')
  if t.isEmpty then ['0'] else t

/-- Tail of the operator chain `a1 OP a2 OP … OP an` after its first
operand. -/
def tailToks (op : Tok) : List (List Char) → List Tok
  | [] => []
  | s :: rest => op :: Tok.num s :: tailToks op rest

/-- Token stream of the operator chain `a1 OP a2 OP … OP an`, the operands
given as binary-literal texts. -/
def chainToks (op : Tok) (s0 : List Char) (ss : List (List Char)) : List Tok :=
  Tok.num s0 :: tailToks op ss

end Mini

namespace RunnerPy

/-- The arithmetic meaning of each operator token (`&`, `|`, `^` on the
operand values). -/
def opFn : Mini.Tok → Nat → Nat → Nat
  | .kwAnd => fun a b => a &&& b
  | .kwOr => fun a b => a ||| b
  | .kwXor => fun a b => a ^^^ b
  | _ => fun a _ => a

/-- The value `factor` computes for an `and` chain: the loop body reads
`atom2 = self.factor()`, so the chain is consumed by recursion and the
values combine to the right. -/
def andVal : List Char → List (List Char) → Nat
  | s0, [] => Mini.binVal s0
  | s0, s1 :: rest => Mini.binVal s0 &&& andVal s1 rest

/-- A run of successful statements, mirroring the fuel threading of
`stmt_list`: from environment `e` and tokens `ts`, executing some prefix of
whole statements reaches a new environment with some tokens remaining. -/
inductive Steps : Nat → Env → List Mini.Tok → Env → List Mini.Tok → Prop where
  | refl (f : Nat) (e : Env) (ts : List Mini.Tok) : Steps f e ts e ts
  | step {f : Nat} {e : Env} {ts : List Mini.Tok} {e1 : Env} {out : List (List Char)}
      {ts1 : List Mini.Tok} {e2 : Env} {ts2 : List Mini.Tok} :
      stmt f e ts = .ok (e1, out, ts1) →
      Steps f e1 ts1 e2 ts2 →
      Steps (f + 1) e ts e2 ts2

end RunnerPy

/-! ## Binary value and binary formatting -/

namespace Mini

theorem binVal_from (a : Nat) (s : List Char) :
    s.foldl (fun a c => 2 * a + (if c = '1' then 1 else 0)) a
      = a * 2 ^ s.length + binVal s := by
  induction s generalizing a with
  | nil => simp [binVal]
  | cons c s ih =>
    simp only [List.foldl_cons, List.length_cons, binVal]
    rw [ih, ih (2 * 0 + _)]
    ring

theorem binVal_append (s t : List Char) :
    binVal (s ++ t) = binVal s * 2 ^ t.length + binVal t := by
  conv_lhs => simp only [binVal, List.foldl_append]
  rw [binVal_from]
  rfl

theorem binVal_one (c : Char) : binVal [c] = (if c = '1' then 1 else 0) := by
  simp [binVal]

theorem binVal_cons (c : Char) (s : List Char) :
    binVal (c :: s) = (if c = '1' then 1 else 0) * 2 ^ s.length + binVal s := by
  rw [← List.singleton_append, binVal_append, binVal_one]

theorem binVal_snoc (s : List Char) (c : Char) :
    binVal (s ++ [c]) = 2 * binVal s + (if c = '1' then 1 else 0) := by
  rw [binVal_append, binVal_one]
  simp only [List.length_cons, List.length_nil, pow_one]
  ring

theorem binDigitsAux_stable : ∀ n f g, n ≤ f → n ≤ g →
    binDigitsAux f n = binDigitsAux g n := by
  intro n
  induction n using Nat.strong_induction_on with
  | _ n ih =>
    intro f g hf hg
    match n, f, g with
    | 0, f, g => cases f <;> cases g <;> rfl
    | n + 1, f + 1, g + 1 =>
      simp only [binDigitsAux]
      have hlt : (n + 1) / 2 < n + 1 := Nat.div_lt_self (Nat.succ_pos n) (by omega)
      rw [ih ((n + 1) / 2) hlt f ((n+1)/2) (by omega) (le_refl _),
          ih ((n + 1) / 2) hlt g ((n+1)/2) (by omega) (le_refl _)]

theorem binDigits_succ (n : Nat) :
    binDigits (n + 1) = binDigits ((n + 1) / 2) ++ [if (n + 1) % 2 = 1 then '1' else '0'] := by
  have hlt : (n + 1) / 2 < n + 1 := Nat.div_lt_self (Nat.succ_pos n) (by omega)
  simp only [binDigits, binDigitsAux]
  rw [binDigitsAux_stable ((n + 1) / 2) n ((n+1)/2) (by omega) (le_refl _)]

theorem binDigits_two_mul_add (m b : Nat) (hm : 0 < m) (hb : b < 2) :
    binDigits (2 * m + b) = binDigits m ++ [if b = 1 then '1' else '0'] := by
  obtain ⟨k, hk⟩ : ∃ k, 2 * m + b = k + 1 := ⟨2 * m + b - 1, by omega⟩
  rw [hk, binDigits_succ]
  have h1 : (k + 1) / 2 = m := by omega
  have h2 : (k + 1) % 2 = b := by omega
  rw [h1, h2]

theorem binDigits_binVal : ∀ t : List Char, (∀ c ∈ t, c = '0' ∨ c = '1') →
    t.head? = some '1' → binDigits (binVal t) = t ∧ 1 ≤ binVal t := by
  intro t
  induction t using List.reverseRecOn with
  | nil => intro _ h; simp at h
  | append_singleton u c ih =>
    intro hb hh
    cases u with
    | nil =>
      simp only [List.nil_append, List.head?_cons, Option.some.injEq] at hh
      subst hh
      exact ⟨by decide, by decide⟩
    | cons u0 urest =>
      have hh' : (u0 :: urest).head? = some '1' := by
        simpa using hh
      have hbu : ∀ x ∈ u0 :: urest, x = '0' ∨ x = '1' := by
        intro x hx
        apply hb x
        simp only [List.cons_append, List.mem_cons, List.mem_append] at hx ⊢
        tauto
      obtain ⟨ihd, ihpos⟩ := ih hbu hh'
      rw [binVal_snoc]
      constructor
      · rw [binDigits_two_mul_add _ _ (by omega) (by split <;> omega)]
        rw [ihd]
        have hc : c = '0' ∨ c = '1' := hb c (by simp)
        rcases hc with hc | hc <;> subst hc <;> simp
      · omega

theorem dropWhile_head_not (p : Char → Bool) :
    ∀ (s : List Char) (c : Char), (s.dropWhile p).head? = some c → p c = false := by
  intro s
  induction s with
  | nil => intro c h; simp at h
  | cons a s ih =>
    intro c h
    by_cases ha : p a
    · rw [List.dropWhile_cons_of_pos ha] at h
      exact ih c h
    · rw [List.dropWhile_cons_of_neg ha] at h
      simp only [List.head?_cons, Option.some.injEq] at h
      subst h
      simpa using ha

theorem binVal_all_zero : ∀ q : List Char, (∀ c ∈ q, c = '0') → binVal q = 0 := by
  intro q
  induction q with
  | nil => intro _; rfl
  | cons a q ih =>
    intro h
    rw [binVal_cons, ih (fun c hc => h c (by simp [hc]))]
    have ha : a = '0' := h a (by simp)
    subst ha
    simp

/-- Binary formatting inverts the binary literal up to leading zeros:
formatting the value of a binary-digit string gives the string with
leading zeros stripped (at least one digit). -/
theorem toBinChars_binVal (s : List Char)
    (hb : ∀ c ∈ s, c = '0' ∨ c = '1') :
    toBinChars (binVal s) = stripZeros s := by
  have hsplit := List.takeWhile_append_dropWhile (p := fun c => decide (c = '0')) (l := s)
  have hvalt : binVal s = binVal (s.dropWhile (fun c => decide (c = '0'))) := by
    conv_lhs => rw [← hsplit]
    rw [binVal_append]
    have hz : binVal (s.takeWhile (fun c => decide (c = '0'))) = 0 := by
      apply binVal_all_zero
      intro c hc
      have hc2 := List.mem_takeWhile_imp hc
      exact of_decide_eq_true hc2
    rw [hz, Nat.zero_mul, Nat.zero_add]
  rcases hd : s.dropWhile (fun c => decide (c = '0')) with _ | ⟨t0, trest⟩
  · rw [hvalt, hd]
    simp [toBinChars, stripZeros, hd, binVal]
  · have ht0mem : t0 ∈ s := by
      have hmem : t0 ∈ s.dropWhile (fun c => decide (c = '0')) := by
        rw [hd]; simp
      exact (List.dropWhile_sublist (p := fun c => decide (c = '0')) (l := s)).subset hmem
    have hhead : t0 = '1' := by
      have hfalse := dropWhile_head_not (fun c => decide (c = '0')) s t0 (by rw [hd]; rfl)
      rcases hb t0 ht0mem with h0 | h1
      · rw [h0] at hfalse
        simp at hfalse
      · exact h1
    have hbt : ∀ c ∈ t0 :: trest, c = '0' ∨ c = '1' := by
      intro c hc
      apply hb
      have hmem : c ∈ s.dropWhile (fun c => decide (c = '0')) := by rw [hd]; exact hc
      exact (List.dropWhile_sublist (p := fun c => decide (c = '0')) (l := s)).subset hmem
    obtain ⟨hrepr, hpos⟩ := binDigits_binVal (t0 :: trest) hbt (by rw [hhead]; rfl)
    rw [hvalt, hd]
    rw [toBinChars, if_neg (by omega), hrepr]
    simp [stripZeros, hd]

end Mini

/-! ## Lexer lemmas: scanning a binary literal and a `print` prefix -/

namespace Mini

theorem runLen_all (p : Char → Bool) : ∀ s : List Char, (∀ c ∈ s, p c = true) →
    runLen p s = s.length := by
  intro s
  induction s with
  | nil => intro _; rfl
  | cons c rest ih =>
    intro h
    simp only [runLen, List.length_cons]
    rw [if_pos (h c (by simp)), ih (fun x hx => h x (by simp [hx]))]

theorem matchLens_bin (c : Char) (rest : List Char) (hc : c = '0' ∨ c = '1') :
    matchLens (c :: rest) =
      [none, none, none, none, none, some (runLen isBinDigit rest + 1),
       none, none, none, none] := by
  rcases hc with hc | hc <;> subst hc <;> rfl

/-- On a nonempty all-binary remainder, the longest scanner match is the
binary number pattern consuming the whole run. -/
theorem scanStep_bin (s : List Char) (hne : s ≠ []) (hb : ∀ c ∈ s, c = '0' ∨ c = '1') :
    scanStep s = .tok (Tok.num s) [] := by
  obtain ⟨c, rest, rfl⟩ : ∃ c rest, s = c :: rest := by
    cases s with
    | nil => exact absurd rfl hne
    | cons c rest => exact ⟨c, rest, rfl⟩
  have hr : runLen isBinDigit rest = rest.length := by
    apply runLen_all
    intro x hx
    rcases hb x (by simp [hx]) with h | h <;> simp [h, isBinDigit]
  simp only [scanStep, matchLens_bin c rest (hb c (by simp)), pickBest, hr]
  simp [mkTok, List.take_succ_cons, List.drop_succ_cons, List.take_length, List.drop_length]

/-- Keyword print and the identifier pattern tie at five characters (the
blank stops the identifier run), and the earlier print entry wins. -/
theorem scanStep_print (cs : List Char) :
    scanStep ('p':: 'r':: 'i':: 'n':: 't':: ' '::cs) = .tok Tok.kwPrint (' '::cs) := rfl

theorem scanStep_space (cs : List Char) : scanStep (' '::cs) = .skip cs := rfl

theorem tokenize_succ (f : Nat) (cs : List Char) :
    tokenize (f + 1) cs =
      match scanStep cs with
      | .eof => some []
      | .skip rest => tokenize f rest
      | .tok t rest => (tokenize f rest).map (t :: ·)
      | .bad => some [Tok.badChar] := rfl

theorem tokenize_print_bin (s : List Char) (hne : s ≠ [])
    (hb : ∀ c ∈ s, c = '0' ∨ c = '1') (f : Nat) :
    tokenize (f + 4) ('p':: 'r':: 'i':: 'n':: 't':: ' '::s) = some [Tok.kwPrint, Tok.num s] := by
  rw [show f + 4 = (f + 3) + 1 from rfl, tokenize_succ, scanStep_print]
  dsimp only
  rw [show f + 3 = (f + 2) + 1 from rfl, tokenize_succ, scanStep_space]
  dsimp only
  rw [show f + 2 = (f + 1) + 1 from rfl, tokenize_succ, scanStep_bin s hne hb]
  dsimp only
  rw [tokenize_succ]
  rfl

end Mini

/-! ## Claims about concrete programs -/

open Mini

/-- Claim C1 states that for every binary literal B, the program
`x = B` then `print x` completes and outputs B with leading zeros
stripped.  The code does not: the ID branch of atom stores varname but
never consults `self.list` and has no return, so the reference yields
Python None, and formatting None in the print statement raises an
uncaught `TypeError`.  At B equal to 1 the run crashes with no output
instead of printing 1. -/
theorem c1_reference_crashes :
    RunnerPy.runMain ("x = 1 print x".toList) = .typeError [] := by decide

/-- Claim C2 states that `print y` with y unbound raises an
UndefinedVariableError naming y.  The code has no such error: the ID
branch of atom silently produces None (the defect the spec orders fixed),
and the run dies with an uncaught `TypeError` from formatting None,
naming nothing. -/
theorem c2_no_undefined_variable_error :
    RunnerPy.runMain ("print y".toList) = .typeError [] := by decide

/-- Claim C3 states that `print (1 or 0) and 0` outputs 0.  The
code does not: the parenthesized branch of atom computes
`expression = self.expr()` but has no return, so the parenthesized atom
evaluates to None and conjoining None with 0 raises an uncaught
`TypeError`. -/
theorem c3_paren_branch_returns_none :
    RunnerPy.runMain ("print (1 or 0) and 0".toList) = .typeError [] := by decide

/-- Claim C4: the program `print 1 or 0 and 0` outputs the single line 1:
the and operator binds tighter than or, so the expression evaluates as
`1 or (0 and 0)`. -/
theorem c4_and_binds_tighter :
    RunnerPy.runMain ("print 1 or 0 and 0".toList) = .finished [['1']] := by decide

/-! ## C5: binary literals evaluate and print as their base-2 value -/

/-- Claim C5: for every string s of binary digits, the standalone
expression s evaluates to the unsigned integer with base-2 value s
(the binary number atom returns the base-two int conversion of the matched
text), and the program `print s` outputs one line: s with leading zeros
stripped but at least one digit. -/
theorem c5_literal_value_and_print (s : List Char) (hne : s ≠ [])
    (hb : ∀ c ∈ s, c = '0' ∨ c = '1') :
    RunnerPy.expr 20 [Tok.num s] = .ok (some (binVal s), []) ∧
    RunnerPy.runMain ('p':: 'r':: 'i':: 'n':: 't':: ' '::s) = .finished [stripZeros s] := by
  constructor
  · rfl
  · have hlen : ('p':: 'r':: 'i':: 'n':: 't':: ' '::s).length + 1 = (s.length + 3) + 4 := by
      simp
    simp only [RunnerPy.runMain, hlen, tokenize_print_bin s hne hb]
    show RunnerPy.Outcome.finished [toBinChars (binVal s)] = _
    rw [toBinChars_binVal s hb]

theorem c5_literal_value_and_print_witness :
    RunnerPy.expr 20 [Tok.num ['0','1','0']] = .ok (some (binVal ['0','1','0']), []) ∧
    RunnerPy.runMain ('p':: 'r':: 'i':: 'n':: 't':: ' '::['0','1','0'])
      = .finished [stripZeros ['0','1','0']] :=
  c5_literal_value_and_print ['0','1','0'] (by decide) (by decide)

/-! ## C8: the `match` consumption primitive -/

/-- Claim C8: when the lookahead kind equals the expected kind, the match
primitive consumes the lookahead and fetches the next one from the lexer
(which is where a pending scan error surfaces); otherwise it raises a
ParseError reporting the found and expected kinds, and consumes nothing.
All other procedures consume tokens only through match. -/
theorem c8_match_contract (k : Kind) (ts : List Tok) :
    (laKind ts = some k →
      RunnerPy.pmatch k ts =
        if ts.tail.head? = some Tok.badChar then .error .scanErr else .ok ts.tail) ∧
    (laKind ts ≠ some k →
      RunnerPy.pmatch k ts =
        .error (.parseErr ("found " ++ laName ts ++ " instead of " ++ kindName k))) := by
  cases ts with
  | nil =>
    constructor
    · intro h
      simp [laKind] at h
    · intro _
      simp [RunnerPy.pmatch, laName, laKind]
  | cons t rest =>
    constructor
    · intro h
      have hk : t.kind = k := by simpa [laKind] using h
      simp [RunnerPy.pmatch, hk]
    · intro h
      have hk : ¬ t.kind = k := by
        intro hk
        exact h (by simp [laKind, hk])
      simp [RunnerPy.pmatch, hk]

theorem c8_match_contract_witness :
    RunnerPy.pmatch .kwPrint [Tok.kwPrint] = .ok [] ∧
    RunnerPy.pmatch .lpar [Tok.kwPrint] =
      .error (.parseErr "found print instead of (") := by
  constructor
  · have h := (c8_match_contract .kwPrint [Tok.kwPrint]).1 (by decide)
    simpa using h
  · have h := (c8_match_contract .lpar [Tok.kwPrint]).2 (by decide)
    simpa [laName, laKind, kindName] using h

/-! ## C7: effects are committed statement by statement -/

/-- Claim C7: when a statement sequence fails (scan, syntax, or evaluation
error), the environment reported at the moment the error reaches the top
level is exactly the one produced by the successful statements executed
before the failing one: earlier assignments are not rolled back, and the
failing statement adds no binding. -/
theorem c7_error_env_from_completed_stmts (f : Nat) (e : RunnerPy.Env) (ts : List Tok)
    (er : RunnerPy.Err) (eE : RunnerPy.Env) (outs : List (List Char))
    (h : RunnerPy.stmtList f e ts = .err er eE outs) :
    ∃ ts', RunnerPy.Steps f e ts eE ts' := by
  induction f generalizing e ts outs with
  | zero =>
    simp only [RunnerPy.stmtList] at h
    cases h
    exact ⟨ts, RunnerPy.Steps.refl _ _ _⟩
  | succ f ih =>
    simp only [RunnerPy.stmtList] at h
    split at h
    · cases hs : RunnerPy.stmt f e ts with
      | error er' =>
        simp only [hs] at h
        cases h
        exact ⟨ts, RunnerPy.Steps.refl _ _ _⟩
      | ok r =>
        obtain ⟨e1, out, ts1⟩ := r
        simp only [hs] at h
        cases hl : RunnerPy.stmtList f e1 ts1 with
        | ok e2 outs2 =>
          simp only [hl] at h
          cases h
        | err er2 e2 outs2 =>
          simp only [hl] at h
          cases h
          obtain ⟨ts', hsteps⟩ := ih e1 ts1 outs2 hl
          exact ⟨ts', RunnerPy.Steps.step hs hsteps⟩
    · split at h
      · cases h
      · cases h
        exact ⟨ts, RunnerPy.Steps.refl _ _ _⟩

theorem c7_error_env_from_completed_stmts_witness :
    ∃ ts', RunnerPy.Steps 30 []
      [Tok.ident ['x'], Tok.eqTok, Tok.num ['1'], Tok.ident ['y'], Tok.eqTok, Tok.kwAnd]
      [(['x'], some 1)] ts' :=
  c7_error_env_from_completed_stmts 30 []
    [Tok.ident ['x'], Tok.eqTok, Tok.num ['1'], Tok.ident ['y'], Tok.eqTok, Tok.kwAnd]
    (.parseErr "in expr: (, id or binary number expected") [(['x'], some 1)] []
    (by decide)

/-! ## C9: keyword versus identifier classification -/

namespace Mini

theorem runLen_le (p : Char → Bool) : ∀ s : List Char, runLen p s ≤ s.length := by
  intro s
  induction s with
  | nil => exact Nat.le_refl 0
  | cons c rest ih =>
    simp only [runLen, List.length_cons]
    split <;> omega

theorem nameLen_le (cs : List Char) (l : Nat) (h : nameLen cs = some l) : l ≤ cs.length := by
  cases cs with
  | nil => simp [nameLen] at h
  | cons c rest =>
    simp only [nameLen] at h
    split at h
    · cases h
      have := runLen_le isIdentCont rest
      simp only [List.length_cons]
      omega
    · cases h

theorem pickBest_none (ms : List (Option Nat)) :
    pickBest (none :: ms) = (pickBest ms).map (fun p => (p.1 + 1, p.2)) := rfl

theorem pickBest_some (l0 : Nat) (ms : List (Option Nat)) :
    pickBest (some l0 :: ms) =
      match pickBest ms with
      | some (j, l') => if l0 < l' then some (j + 1, l') else some (0, l0)
      | none => some (0, l0) := rfl

theorem pickBest_get : ∀ (ms : List (Option Nat)) (i l : Nat),
    pickBest ms = some (i, l) → ms[i]? = some (some l) := by
  intro ms
  induction ms with
  | nil => intro i l h; simp [pickBest] at h
  | cons m ms ih =>
    intro i l h
    cases m with
    | none =>
      rw [pickBest_none] at h
      rcases hpe : pickBest ms with _ | ⟨i', l'⟩ <;> rw [hpe] at h
      · simp at h
      · simp only [Option.map_some'] at h
        injection h with h'
        injection h' with h1 h2
        subst h1
        subst h2
        simpa using ih i' l' hpe
    | some l0 =>
      rw [pickBest_some] at h
      rcases hpe : pickBest ms with _ | ⟨j0, l'⟩ <;> rw [hpe] at h
      · dsimp only at h
        injection h with h'
        injection h' with h1 h2
        subst h1
        subst h2
        simp
      · dsimp only at h
        split at h
        · injection h with h'
          injection h' with h1 h2
          subst h1
          subst h2
          simpa using ih j0 l' hpe
        · injection h with h'
          injection h' with h1 h2
          subst h1
          subst h2
          simp

theorem pickBest_earlier_lt : ∀ (ms : List (Option Nat)) (i l : Nat),
    pickBest ms = some (i, l) →
    ∀ j lj, j < i → ms[j]? = some (some lj) → lj < l := by
  intro ms
  induction ms with
  | nil => intro i l h; simp [pickBest] at h
  | cons m ms ih =>
    intro i l h j lj hji hj
    cases m with
    | none =>
      rw [pickBest_none] at h
      rcases hpe : pickBest ms with _ | ⟨i', l'⟩ <;> rw [hpe] at h
      · simp at h
      · simp only [Option.map_some'] at h
        injection h with h'
        injection h' with h1 h2
        subst h1
        subst h2
        cases j with
        | zero => simp at hj
        | succ j' =>
          simp only [List.getElem?_cons_succ] at hj
          exact ih i' l' hpe j' lj (by omega) hj
    | some l0 =>
      rw [pickBest_some] at h
      rcases hpe : pickBest ms with _ | ⟨j0, l'⟩ <;> rw [hpe] at h
      · dsimp only at h
        injection h with h'
        injection h' with h1 h2
        subst h1
        subst h2
        omega
      · dsimp only at h
        split at h
        · injection h with h'
          injection h' with h1 h2
          subst h1
          subst h2
          cases j with
          | zero =>
            simp only [List.getElem?_cons_zero, Option.some.injEq] at hj
            subst hj
            omega
          | succ j' =>
            simp only [List.getElem?_cons_succ] at hj
            exact ih j0 l' hpe j' lj (by omega) hj
        · injection h with h'
          injection h' with h1 h2
          subst h1
          subst h2
          omega

end Mini

namespace Mini

theorem scanStep_tok_inv (cs : List Char) (t : Tok) (rest : List Char)
    (h : scanStep cs = .tok t rest) :
    ∃ i l, pickBest (matchLens cs) = some (i, l) ∧
      mkTok i (cs.take l) (cs.drop l) = ScanRes.tok t rest := by
  rw [scanStep.eq_def] at h
  cases hpb : pickBest (matchLens cs) with
  | none =>
    rw [hpb] at h
    dsimp only at h
    split at h <;> cases h
  | some p =>
    rw [hpb] at h
    exact ⟨p.1, p.2, rfl, h⟩

end Mini

namespace Mini

theorem mkTok_ident_inv (i : Nat) (text rest t rest' : List Char)
    (h : mkTok i text rest = ScanRes.tok (Tok.ident t) rest') :
    i = 9 ∧ t = text ∧ rest' = rest := by
  rcases i with _|_|_|_|_|_|_|_|_|_|i <;> simp only [mkTok] at h <;>
    (cases h; try exact ⟨rfl, rfl, rfl⟩)

end Mini

namespace Mini

theorem matchLens_get9 (cs : List Char) : (matchLens cs)[9]? = some (nameLen cs) := rfl

theorem matchLens_get4 (cs : List Char) : (matchLens cs)[4]? = some (litLen pchars cs) := rfl

theorem matchLens_get6 (cs : List Char) : (matchLens cs)[6]? = some (litLen achars cs) := rfl

theorem matchLens_get7 (cs : List Char) : (matchLens cs)[7]? = some (litLen ochars cs) := rfl

theorem matchLens_get8 (cs : List Char) : (matchLens cs)[8]? = some (litLen xchars cs) := rfl

theorem litLen_of_take (w cs : List Char) (h : cs.take w.length = w) :
    litLen w cs = some w.length := by
  rw [litLen, if_pos]
  rw [List.isPrefixOf_iff_prefix, List.prefix_iff_eq_take]
  exact h.symm

theorem scanStep_ident_not_kw (cs t rest : List Char)
    (h : scanStep cs = .tok (Tok.ident t) rest) :
    t ≠ pchars ∧ t ≠ achars ∧ t ≠ ochars ∧ t ≠ xchars := by
  obtain ⟨i, l, hpb, hmk⟩ := scanStep_tok_inv cs (Tok.ident t) rest h
  obtain ⟨hi, ht, -⟩ := mkTok_ident_inv i (cs.take l) (cs.drop l) t rest hmk
  subst hi
  have h9 := pickBest_get _ _ _ hpb
  rw [matchLens_get9] at h9
  have hname : nameLen cs = some l := by injection h9
  have hlle : l ≤ cs.length := nameLen_le cs l hname
  have hlen_t : t.length = l := by
    rw [ht, List.length_take]
    omega
  refine ⟨?_, ?_, ?_, ?_⟩ <;> intro heq
  · have hl : l = 5 := by rw [← hlen_t, heq]; rfl
    have htake : cs.take pchars.length = pchars := by
      rw [show pchars.length = 5 from rfl, ← hl, ← ht, heq]
    have := pickBest_earlier_lt _ _ _ hpb 4 5 (by omega)
      (by rw [matchLens_get4, litLen_of_take pchars cs htake]; rfl)
    omega
  · have hl : l = 3 := by rw [← hlen_t, heq]; rfl
    have htake : cs.take achars.length = achars := by
      rw [show achars.length = 3 from rfl, ← hl, ← ht, heq]
    have := pickBest_earlier_lt _ _ _ hpb 6 3 (by omega)
      (by rw [matchLens_get6, litLen_of_take achars cs htake]; rfl)
    omega
  · have hl : l = 2 := by rw [← hlen_t, heq]; rfl
    have htake : cs.take ochars.length = ochars := by
      rw [show ochars.length = 2 from rfl, ← hl, ← ht, heq]
    have := pickBest_earlier_lt _ _ _ hpb 7 2 (by omega)
      (by rw [matchLens_get7, litLen_of_take ochars cs htake]; rfl)
    omega
  · have hl : l = 3 := by rw [← hlen_t, heq]; rfl
    have htake : cs.take xchars.length = xchars := by
      rw [show xchars.length = 3 from rfl, ← hl, ← ht, heq]
    have := pickBest_earlier_lt _ _ _ hpb 8 3 (by omega)
      (by rw [matchLens_get8, litLen_of_take xchars cs htake]; rfl)
    omega

end Mini

namespace Mini

theorem pickBest_entry4 (l9 : Nat) (h : 5 < l9) :
    pickBest [none, none, none, none, some 5, none, none, none, none, some l9]
      = some (9, l9) := by
  simp [pickBest, h]

theorem pickBest_entry6 (l9 : Nat) (h : 3 < l9) :
    pickBest [none, none, none, none, none, none, some 3, none, none, some l9]
      = some (9, l9) := by
  simp [pickBest, h]

theorem pickBest_entry7 (l9 : Nat) (h : 2 < l9) :
    pickBest [none, none, none, none, none, none, none, some 2, none, some l9]
      = some (9, l9) := by
  simp [pickBest, h]

theorem pickBest_entry8 (l9 : Nat) (h : 3 < l9) :
    pickBest [none, none, none, none, none, none, none, none, some 3, some l9]
      = some (9, l9) := by
  simp [pickBest, h]

theorem scanStep_print_ext (s : List Char) (hne : s ≠ [])
    (hs : ∀ c ∈ s, isIdentCont c = true) :
    scanStep ('p':: 'r':: 'i':: 'n':: 't'::s) = .tok (Tok.ident ('p':: 'r':: 'i':: 'n':: 't'::s)) [] := by
  obtain ⟨c0, s', rfl⟩ : ∃ c0 s', s = c0 :: s' := by
    cases s with
    | nil => exact absurd rfl hne
    | cons c0 s' => exact ⟨c0, s', rfl⟩
  have hrun : runLen isIdentCont (c0 :: s') = s'.length + 1 := by
    rw [runLen_all _ _ hs]
    rfl
  rw [scanStep.eq_def]
  rw [show matchLens ('p':: 'r':: 'i':: 'n':: 't'::c0::s') =
      [none, none, none, none, some 5, none, none, none, none,
       some (runLen isIdentCont (c0::s') + 5)] from rfl, hrun]
  rw [pickBest_entry4 _ (by omega)]
  dsimp only [mkTok]
  rw [show (s'.length + 1 + 5 : Nat) = ('p':: 'r':: 'i':: 'n':: 't'::c0::s').length from by simp]
  rw [List.take_length, List.drop_length]

theorem scanStep_and_ext (s : List Char) (hne : s ≠ [])
    (hs : ∀ c ∈ s, isIdentCont c = true) :
    scanStep ('a':: 'n':: 'd'::s) = .tok (Tok.ident ('a':: 'n':: 'd'::s)) [] := by
  obtain ⟨c0, s', rfl⟩ : ∃ c0 s', s = c0 :: s' := by
    cases s with
    | nil => exact absurd rfl hne
    | cons c0 s' => exact ⟨c0, s', rfl⟩
  have hrun : runLen isIdentCont (c0 :: s') = s'.length + 1 := by
    rw [runLen_all _ _ hs]
    rfl
  rw [scanStep.eq_def]
  rw [show matchLens ('a':: 'n':: 'd'::c0::s') =
      [none, none, none, none, none, none, some 3, none, none,
       some (runLen isIdentCont (c0::s') + 3)] from rfl, hrun]
  rw [pickBest_entry6 _ (by omega)]
  dsimp only [mkTok]
  rw [show (s'.length + 1 + 3 : Nat) = ('a':: 'n':: 'd'::c0::s').length from by simp]
  rw [List.take_length, List.drop_length]

theorem scanStep_or_ext (s : List Char) (hne : s ≠ [])
    (hs : ∀ c ∈ s, isIdentCont c = true) :
    scanStep ('o':: 'r'::s) = .tok (Tok.ident ('o':: 'r'::s)) [] := by
  obtain ⟨c0, s', rfl⟩ : ∃ c0 s', s = c0 :: s' := by
    cases s with
    | nil => exact absurd rfl hne
    | cons c0 s' => exact ⟨c0, s', rfl⟩
  have hrun : runLen isIdentCont (c0 :: s') = s'.length + 1 := by
    rw [runLen_all _ _ hs]
    rfl
  rw [scanStep.eq_def]
  rw [show matchLens ('o':: 'r'::c0::s') =
      [none, none, none, none, none, none, none, some 2, none,
       some (runLen isIdentCont (c0::s') + 2)] from rfl, hrun]
  rw [pickBest_entry7 _ (by omega)]
  dsimp only [mkTok]
  rw [show (s'.length + 1 + 2 : Nat) = ('o':: 'r'::c0::s').length from by simp]
  rw [List.take_length, List.drop_length]

theorem scanStep_xor_ext (s : List Char) (hne : s ≠ [])
    (hs : ∀ c ∈ s, isIdentCont c = true) :
    scanStep ('x':: 'o':: 'r'::s) = .tok (Tok.ident ('x':: 'o':: 'r'::s)) [] := by
  obtain ⟨c0, s', rfl⟩ : ∃ c0 s', s = c0 :: s' := by
    cases s with
    | nil => exact absurd rfl hne
    | cons c0 s' => exact ⟨c0, s', rfl⟩
  have hrun : runLen isIdentCont (c0 :: s') = s'.length + 1 := by
    rw [runLen_all _ _ hs]
    rfl
  rw [scanStep.eq_def]
  rw [show matchLens ('x':: 'o':: 'r'::c0::s') =
      [none, none, none, none, none, none, none, none, some 3,
       some (runLen isIdentCont (c0::s') + 3)] from rfl, hrun]
  rw [pickBest_entry8 _ (by omega)]
  dsimp only [mkTok]
  rw [show (s'.length + 1 + 3 : Nat) = ('x':: 'o':: 'r'::c0::s').length from by simp]
  rw [List.take_length, List.drop_length]

end Mini

/-- Claim C9: the lexer never classifies the exact words print, and, or,
xor as identifier tokens (the keyword entries precede the identifier
entry in the lexicon and win ties), while any strictly longer word
beginning with one of them and continuing with identifier characters is
one single identifier token, because the longer identifier maximal munch
beats the exact keyword length. -/
theorem c9_keywords_vs_identifiers :
    (∀ cs t rest, scanStep cs = .tok (Tok.ident t) rest →
        t ≠ pchars ∧ t ≠ achars ∧ t ≠ ochars ∧ t ≠ xchars) ∧
    (∀ k s, (k = pchars ∨ k = achars ∨ k = ochars ∨ k = xchars) → s ≠ [] →
        (∀ c ∈ s, isIdentCont c = true) →
        scanStep (k ++ s) = .tok (Tok.ident (k ++ s)) []) := by
  constructor
  · exact scanStep_ident_not_kw
  · intro k s hk hne hs
    rcases hk with rfl | rfl | rfl | rfl
    · exact scanStep_print_ext s hne hs
    · exact scanStep_and_ext s hne hs
    · exact scanStep_or_ext s hne hs
    · exact scanStep_xor_ext s hne hs

theorem c9_keywords_vs_identifiers_witness :
    (['z'] ≠ pchars ∧ ['z'] ≠ achars ∧ ['z'] ≠ ochars ∧ ['z'] ≠ xchars) ∧
    scanStep (achars ++ ['x']) = .tok (Tok.ident (achars ++ ['x'])) [] :=
  ⟨c9_keywords_vs_identifiers.1 ['z'] ['z'] [] (by decide),
   c9_keywords_vs_identifiers.2 achars ['x'] (Or.inr (Or.inl rfl)) (by decide) (by decide)⟩

/-! ## C6: operator chains fold left -/

namespace RunnerPy

open Mini

/-! One-level unfolding equations for the chain procedures; all are
definitional. -/

theorem factorLoop_cons_and (G : Nat) (v : PyVal) (s1 : List Char) (rest : List Tok) :
    factorLoop (G + 1) v (Tok.kwAnd :: Tok.num s1 :: rest) =
      (factor G (Tok.num s1 :: rest)).bind (fun p =>
        (pyAnd v p.1).bind (fun v2 => factorLoop G v2 p.2)) := rfl

theorem termLoop_cons_or (G : Nat) (v : PyVal) (s1 : List Char) (rest : List Tok) :
    termLoop (G + 1) v (Tok.kwOr :: Tok.num s1 :: rest) =
      (factor G (Tok.num s1 :: rest)).bind (fun p =>
        (pyOr v p.1).bind (fun v2 => termLoop G v2 p.2)) := rfl

theorem exprLoop_cons_xor (G : Nat) (v : PyVal) (s1 : List Char) (rest : List Tok) :
    exprLoop (G + 1) v (Tok.kwXor :: Tok.num s1 :: rest) =
      (term G (Tok.num s1 :: rest)).bind (fun p =>
        (pyXor v p.1).bind (fun v2 => exprLoop G v2 p.2)) := rfl

theorem factor_num_and (G : Nat) (s0 s1 : List Char) (rest : List Tok) :
    factor (G + 2) (Tok.num s0 :: Tok.kwAnd :: Tok.num s1 :: rest) =
      (factorLoop (G + 1) (some (binVal s0)) (Tok.kwAnd :: Tok.num s1 :: rest)).bind (fun q =>
        if laKind q.2 = some .rpar ∨ laKind q.2 = some .kwOr ∨ laKind q.2 = some .kwXor ∨
            laKind q.2 = some .idTok ∨ laKind q.2 = some .kwPrint ∨ laKind q.2 = none
        then Except.ok q
        else Except.error (.parseErr "in factor: AND operator expected")) := rfl

theorem term_succ (G : Nat) (ts : List Tok) :
    term (G + 1) ts =
      if laKind ts = some .lpar ∨ laKind ts = some .idTok ∨ laKind ts = some .binNum then
        (factor G ts).bind (fun p =>
          (termLoop G p.1 p.2).bind (fun q =>
            if laKind q.2 = some .rpar ∨ laKind q.2 = some .kwXor ∨
                laKind q.2 = some .idTok ∨ laKind q.2 = some .kwPrint ∨ laKind q.2 = none
            then Except.ok q
            else Except.error (.parseErr "in term: OR operator expected")))
      else Except.error (.parseErr "in term: (, id or binary number expected") := rfl

theorem expr_succ (G : Nat) (ts : List Tok) :
    expr (G + 1) ts =
      if laKind ts = some .lpar ∨ laKind ts = some .idTok ∨ laKind ts = some .binNum then
        (term G ts).bind (fun p =>
          (exprLoop G p.1 p.2).bind (fun q =>
            if laKind q.2 = some .rpar ∨ laKind q.2 = some .idTok ∨
                laKind q.2 = some .kwPrint ∨ laKind q.2 = none
            then Except.ok q
            else Except.error (.parseErr "in expr: XOR operator expected")))
      else Except.error (.parseErr "in expr: (, id or binary number expected") := rfl

/-- Evaluating factor on a single binary literal whose follower is or,
xor, or the end of input: the and loop does not fire and the follow check
passes. -/
theorem factor_single (g : Nat) (s : List Char) (rest : List Tok)
    (h : laKind rest = some .kwOr ∨ laKind rest = some .kwXor ∨ rest = []) :
    factor (g + 2) (Tok.num s :: rest) = .ok (some (binVal s), rest) := by
  rcases h with h | h | rfl
  · obtain ⟨rest', rfl⟩ : ∃ rest', rest = Tok.kwOr :: rest' := by
      cases rest with
      | nil => simp [laKind] at h
      | cons t rest' =>
        cases t <;> simp [laKind, Tok.kind] at h
        exact ⟨rest', rfl⟩
    rfl
  · obtain ⟨rest', rfl⟩ : ∃ rest', rest = Tok.kwXor :: rest' := by
      cases rest with
      | nil => simp [laKind] at h
      | cons t rest' =>
        cases t <;> simp [laKind, Tok.kind] at h
        exact ⟨rest', rfl⟩
    rfl
  · rfl

/-- Evaluating term on a single binary literal whose follower is xor or
the end of input. -/
theorem term_single (g : Nat) (s : List Char) (rest : List Tok)
    (h : laKind rest = some .kwXor ∨ rest = []) :
    term (g + 3) (Tok.num s :: rest) = .ok (some (binVal s), rest) := by
  rcases h with h | rfl
  · obtain ⟨rest', rfl⟩ : ∃ rest', rest = Tok.kwXor :: rest' := by
      cases rest with
      | nil => simp [laKind] at h
      | cons t rest' =>
        cases t <;> simp [laKind, Tok.kind] at h
        exact ⟨rest', rfl⟩
    rfl
  · rfl

theorem tailToks_head_or (ss : List (List Char)) :
    laKind (tailToks .kwOr ss) = some .kwOr ∨ laKind (tailToks .kwOr ss) = some .kwXor ∨
      tailToks .kwOr ss = [] := by
  cases ss with
  | nil => exact Or.inr (Or.inr rfl)
  | cons s ss' => exact Or.inl rfl

theorem tailToks_head_xor (ss : List (List Char)) :
    laKind (tailToks .kwXor ss) = some .kwXor ∨ tailToks .kwXor ss = [] := by
  cases ss with
  | nil => exact Or.inr rfl
  | cons s ss' => exact Or.inl rfl

/-- The `and` chain: `factor` consumes the whole chain through the
recursive `atom2 = self.factor()` call and combines to the right. -/
theorem factor_and_chain : ∀ (ss : List (List Char)) (fuel : Nat) (s0 : List Char),
    2 * ss.length + 2 ≤ fuel →
    factor fuel (Tok.num s0 :: tailToks .kwAnd ss) = .ok (some (andVal s0 ss), []) := by
  intro ss
  induction ss with
  | nil =>
    intro fuel s0 h
    obtain ⟨g, rfl⟩ : ∃ g, fuel = g + 2 := ⟨fuel - 2, by omega⟩
    exact factor_single g s0 [] (Or.inr (Or.inr rfl))
  | cons s1 ss' ih =>
    intro fuel s0 h
    simp only [List.length_cons] at h
    obtain ⟨g, rfl⟩ : ∃ g, fuel = (g + 1) + 2 := ⟨fuel - 3, by omega⟩
    dsimp only [tailToks]
    rw [factor_num_and (g + 1), factorLoop_cons_and (g + 1),
      ih (g + 1) s1 (by omega)]
    rfl

/-- The `or` loop in `term` folds the chain to the left. -/
theorem termLoop_or_chain : ∀ (ss : List (List Char)) (fuel : Nat) (v0 : Nat),
    2 * ss.length + 1 ≤ fuel →
    termLoop fuel (some v0) (tailToks .kwOr ss)
      = .ok (some (ss.foldl (fun a s => a ||| binVal s) v0), []) := by
  intro ss
  induction ss with
  | nil =>
    intro fuel v0 h
    obtain ⟨g, rfl⟩ : ∃ g, fuel = g + 1 := ⟨fuel - 1, by omega⟩
    rfl
  | cons s1 ss' ih =>
    intro fuel v0 h
    simp only [List.length_cons] at h
    obtain ⟨g, rfl⟩ : ∃ g, fuel = (g + 2) + 1 := ⟨fuel - 3, by omega⟩
    dsimp only [tailToks]
    rw [termLoop_cons_or (g + 2),
      factor_single g s1 (tailToks .kwOr ss') (tailToks_head_or ss')]
    exact ih (g + 2) (v0 ||| binVal s1) (by omega)

/-- The `xor` loop in `expr` folds the chain to the left. -/
theorem exprLoop_xor_chain : ∀ (ss : List (List Char)) (fuel : Nat) (v0 : Nat),
    3 * ss.length + 1 ≤ fuel →
    exprLoop fuel (some v0) (tailToks .kwXor ss)
      = .ok (some (ss.foldl (fun a s => a ^^^ binVal s) v0), []) := by
  intro ss
  induction ss with
  | nil =>
    intro fuel v0 h
    obtain ⟨g, rfl⟩ : ∃ g, fuel = g + 1 := ⟨fuel - 1, by omega⟩
    rfl
  | cons s1 ss' ih =>
    intro fuel v0 h
    simp only [List.length_cons] at h
    obtain ⟨g, rfl⟩ : ∃ g, fuel = (g + 3) + 1 := ⟨fuel - 4, by omega⟩
    dsimp only [tailToks]
    rw [exprLoop_cons_xor (g + 3),
      term_single g s1 (tailToks .kwXor ss') (tailToks_head_xor ss')]
    exact ih (g + 3) (v0 ^^^ binVal s1) (by omega)

end RunnerPy

namespace RunnerPy

open Mini

theorem term_of_factor (g : Nat) (ts : List Tok) (v : Nat)
    (hcond : laKind ts = some .binNum)
    (hf : factor g ts = .ok (some v, [])) :
    term (g + 1) ts = .ok (some v, []) := by
  cases g with
  | zero =>
    have h0 : factor 0 ts = .error .fuelOut := rfl
    rw [h0] at hf
    cases hf
  | succ g' =>
    rw [term_succ (g' + 1), if_pos (Or.inr (Or.inr hcond)), hf]
    rfl

theorem expr_of_term (g : Nat) (ts : List Tok) (v : Nat)
    (hcond : laKind ts = some .binNum)
    (ht : term g ts = .ok (some v, [])) :
    expr (g + 1) ts = .ok (some v, []) := by
  cases g with
  | zero =>
    have h0 : term 0 ts = .error .fuelOut := rfl
    rw [h0] at ht
    cases ht
  | succ g' =>
    rw [expr_succ (g' + 1), if_pos (Or.inr (Or.inr hcond)), ht]
    rfl

/-- The whole `or` chain through `term`. -/
theorem term_or_chain (ss : List (List Char)) (fuel : Nat) (s0 : List Char)
    (h : 2 * ss.length + 4 ≤ fuel) :
    term fuel (Tok.num s0 :: tailToks .kwOr ss)
      = .ok (some (ss.foldl (fun a s => a ||| binVal s) (binVal s0)), []) := by
  obtain ⟨g, rfl⟩ : ∃ g, fuel = (g + 2) + 1 := ⟨fuel - 3, by omega⟩
  have hc : laKind (Tok.num s0 :: tailToks .kwOr ss) = some Kind.lpar ∨
      laKind (Tok.num s0 :: tailToks .kwOr ss) = some Kind.idTok ∨
      laKind (Tok.num s0 :: tailToks .kwOr ss) = some Kind.binNum := Or.inr (Or.inr rfl)
  rw [term_succ (g + 2), if_pos hc,
    factor_single g s0 (tailToks .kwOr ss) (tailToks_head_or ss)]
  dsimp only [Except.bind]
  rw [termLoop_or_chain ss (g + 2) (binVal s0) (by omega)]
  rfl

/-- The whole `xor` chain through `expr`. -/
theorem expr_xor_chain (ss : List (List Char)) (fuel : Nat) (s0 : List Char)
    (h : 3 * ss.length + 5 ≤ fuel) :
    expr fuel (Tok.num s0 :: tailToks .kwXor ss)
      = .ok (some (ss.foldl (fun a s => a ^^^ binVal s) (binVal s0)), []) := by
  obtain ⟨g, rfl⟩ : ∃ g, fuel = (g + 3) + 1 := ⟨fuel - 4, by omega⟩
  have hc : laKind (Tok.num s0 :: tailToks .kwXor ss) = some Kind.lpar ∨
      laKind (Tok.num s0 :: tailToks .kwXor ss) = some Kind.idTok ∨
      laKind (Tok.num s0 :: tailToks .kwXor ss) = some Kind.binNum := Or.inr (Or.inr rfl)
  rw [expr_succ (g + 3), if_pos hc,
    term_single g s0 (tailToks .kwXor ss) (tailToks_head_xor ss)]
  dsimp only [Except.bind]
  rw [exprLoop_xor_chain ss (g + 3) (binVal s0) (by omega)]
  rfl

theorem andVal_foldl_aux : ∀ (ss : List (List Char)) (a b : Nat),
    a &&& ss.foldl (fun x s => x &&& binVal s) b
      = ss.foldl (fun x s => x &&& binVal s) (a &&& b) := by
  intro ss
  induction ss with
  | nil => intro a b; rfl
  | cons s ss' ih =>
    intro a b
    simp only [List.foldl_cons]
    rw [ih a (b &&& binVal s), Nat.land_assoc]

/-- The right-combined `and`-chain value equals the left fold, by
associativity of bitwise `and`. -/
theorem andVal_foldl : ∀ (ss : List (List Char)) (s0 : List Char),
    andVal s0 ss = ss.foldl (fun a s => a &&& binVal s) (binVal s0) := by
  intro ss
  induction ss with
  | nil => intro s0; rfl
  | cons s1 ss' ih =>
    intro s0
    show binVal s0 &&& andVal s1 ss' = _
    rw [ih s1, andVal_foldl_aux, List.foldl_cons]

end RunnerPy

open Mini in
/-- Claim C6: for every operator chain over one operator among and, or,
xor, with binary-literal operands, the chain evaluates to the
left-associative fold of the operator over the operand values (for or and
xor the loops fold left directly; for and the recursive
`atom2 = self.factor()` combines to the right, which yields the same
value because bitwise conjunction is associative). -/
theorem c6_chain_left_fold (op : Tok) (s0 : List Char) (ss : List (List Char))
    (hop : op = Tok.kwAnd ∨ op = Tok.kwOr ∨ op = Tok.kwXor)
    (fuel : Nat) (hfuel : 3 * ss.length + 6 ≤ fuel) :
    RunnerPy.expr fuel (chainToks op s0 ss)
      = .ok (some (ss.foldl (fun a s => RunnerPy.opFn op a (binVal s)) (binVal s0)), []) := by
  rcases hop with rfl | rfl | rfl
  · simp only [show RunnerPy.opFn Tok.kwAnd = fun a b => a &&& b from rfl]
    rw [show (ss.foldl (fun a s => a &&& binVal s) (binVal s0))
        = RunnerPy.andVal s0 ss from (RunnerPy.andVal_foldl ss s0).symm]
    obtain ⟨g, rfl⟩ : ∃ g, fuel = (g + 1) + 1 := ⟨fuel - 2, by omega⟩
    exact RunnerPy.expr_of_term (g + 1) _ _ rfl
      (RunnerPy.term_of_factor g _ _ rfl
        (RunnerPy.factor_and_chain ss g s0 (by omega)))
  · simp only [show RunnerPy.opFn Tok.kwOr = fun a b => a ||| b from rfl]
    obtain ⟨g, rfl⟩ : ∃ g, fuel = g + 1 := ⟨fuel - 1, by omega⟩
    exact RunnerPy.expr_of_term g _ _ rfl
      (RunnerPy.term_or_chain ss g s0 (by omega))
  · exact RunnerPy.expr_xor_chain ss fuel s0 (by omega)

open Mini in
theorem c6_chain_left_fold_witness :
    RunnerPy.expr 12 (chainToks Tok.kwXor ['1'] [['1'], ['0']])
      = .ok (some ([['1'], ['0']].foldl
          (fun a s => RunnerPy.opFn Tok.kwXor a (binVal s)) (binVal ['1'])), []) :=
  c6_chain_left_fold Tok.kwXor ['1'] [['1'], ['0']] (Or.inr (Or.inr rfl)) 12 (by decide)

/-! ## C10: parser.py never accepts xor -/

namespace ParserPy

open Mini

theorem ebind_ok_inv {α β : Type} {ma : Except PErr α} {k : α → Except PErr β} {b : β}
    (h : ma.bind k = .ok b) : ∃ a, ma = .ok a ∧ k a = .ok b := by
  cases ma with
  | error e => exact absurd h (by simp [Except.bind])
  | ok a => exact ⟨a, rfl, h⟩

theorem pmatch_ok_inv (k : Kind) (ts ts' : List Tok) (h : pmatch k ts = .ok ts') :
    ∃ t, ts = t :: ts' ∧ t.kind = k := by
  cases ts with
  | nil =>
    rw [show pmatch k ([] : List Tok) = .error (.parseErr ("found None instead of " ++ kindName k)) from rfl] at h
    cases h
  | cons t rest =>
    simp only [pmatch] at h
    split at h
    · cases h
      exact ⟨t, rfl, by assumption⟩
    · cases h

theorem tok_ne_xor (t : Tok) (k : Kind) (hk : t.kind = k) (hne : k ≠ Kind.kwXor) :
    t ≠ Tok.kwXor := by
  intro heq
  subst heq
  subst hk
  exact hne rfl

/-- One-level unfolding equations for the `parser.py` procedures. -/
theorem atom_succ (G : Nat) (ts : List Tok) :
    atom (G + 1) ts =
      if laKind ts = some .lpar then
        (pmatch .lpar ts).bind (fun ts1 => (expr G ts1).bind (fun ts2 => pmatch .rpar ts2))
      else if laKind ts = some .idTok then pmatch .idTok ts
      else if laKind ts = some .binNum then pmatch .binNum ts
      else .error (.parseErr "in atom: (, id or binary number expected") := rfl

theorem atomTail_succ (G : Nat) (ts : List Tok) :
    atomTail (G + 1) ts =
      if laKind ts = some .kwAnd then
        (pmatch .kwAnd ts).bind (fun ts1 => (atom G ts1).bind (fun ts2 => atomTail G ts2))
      else if laKind ts = some .rpar ∨ laKind ts = some .kwOr ∨ laKind ts = some .kwXor ∨
          laKind ts = some .idTok ∨ laKind ts = some .kwPrint ∨ laKind ts = none then
        .ok ts
      else .error (.parseErr "in atom_tail: and, ), or, xor, id or print expected") := rfl

theorem factor_succ (G : Nat) (ts : List Tok) :
    factor (G + 1) ts =
      if laKind ts = some .lpar ∨ laKind ts = some .idTok ∨ laKind ts = some .binNum then
        (atom G ts).bind (fun ts1 => atomTail G ts1)
      else .error (.parseErr "in factor: (, id or binary number expected") := rfl

theorem factorTail_succ (G : Nat) (ts : List Tok) :
    factorTail (G + 1) ts =
      if laKind ts = some .kwOr then
        (pmatch .kwOr ts).bind (fun ts1 => (factor G ts1).bind (fun ts2 => factorTail G ts2))
      else if laKind ts = some .rpar ∨ laKind ts = some .kwXor ∨
          laKind ts = some .idTok ∨ laKind ts = some .kwPrint ∨ laKind ts = none then
        .ok ts
      else .error (.parseErr "in factor_tail: or, rPar, xor, id or print expected") := rfl

theorem term_unfold (G : Nat) (ts : List Tok) :
    term (G + 1) ts =
      if laKind ts = some .lpar ∨ laKind ts = some .idTok ∨ laKind ts = some .binNum then
        (factor G ts).bind (fun ts1 => factorTail G ts1)
      else .error (.parseErr "in term: (, id or binary number expected") := rfl

theorem expr_unfold (G : Nat) (ts : List Tok) :
    expr (G + 1) ts =
      if laKind ts = some .lpar ∨ laKind ts = some .idTok ∨ laKind ts = some .binNum then
        term G ts
      else .error (.parseErr "in expr: (, id or binary number expected") := rfl

theorem stmt_succ (G : Nat) (ts : List Tok) :
    stmt (G + 1) ts =
      if laKind ts = some .idTok then
        (pmatch .idTok ts).bind (fun ts1 => (pmatch .eqTok ts1).bind (fun ts2 => expr G ts2))
      else if laKind ts = some .kwPrint then
        (pmatch .kwPrint ts).bind (fun ts1 => expr G ts1)
      else .error (.parseErr "in stmt: id or print expected") := rfl

theorem stmtList_succ (G : Nat) (ts : List Tok) :
    stmtList (G + 1) ts =
      if laKind ts = some .idTok ∨ laKind ts = some .kwPrint then
        (stmt G ts).bind (fun ts1 => stmtList G ts1)
      else if laKind ts = none then .ok ts
      else .error (.parseErr "stmt_list: id or print expected") := rfl

end ParserPy

namespace ParserPy

open Mini

theorem pOkInv_all : ∀ f, POkInv f := by
  intro f
  induction f with
  | zero =>
    refine ⟨fun ts ts' h => ?_, fun ts ts' h => ?_, fun ts ts' h => ?_, fun ts ts' h => ?_,
      fun ts ts' h => ?_, fun ts ts' h => ?_, fun ts ts' h => ?_, fun ts ts' h => ?_⟩
    · exact nomatch (show (Except.error PErr.fuelOut : Except PErr (List Tok)) = Except.ok ts' from h)
    · exact nomatch (show (Except.error PErr.fuelOut : Except PErr (List Tok)) = Except.ok ts' from h)
    · exact nomatch (show (Except.error PErr.fuelOut : Except PErr (List Tok)) = Except.ok ts' from h)
    · exact nomatch (show (Except.error PErr.fuelOut : Except PErr (List Tok)) = Except.ok ts' from h)
    · exact nomatch (show (Except.error PErr.fuelOut : Except PErr (List Tok)) = Except.ok ts' from h)
    · exact nomatch (show (Except.error PErr.fuelOut : Except PErr (List Tok)) = Except.ok ts' from h)
    · exact nomatch (show (Except.error PErr.fuelOut : Except PErr (List Tok)) = Except.ok ts' from h)
    · exact nomatch (show (Except.error PErr.fuelOut : Except PErr (List Tok)) = Except.ok ts' from h)
  | succ f ih =>
    obtain ⟨ihAtom, ihAtomTail, ihFactor, ihFactorTail, ihTerm, ihExpr, ihStmt, ihStmtList⟩ := ih
    refine ⟨?_, ?_, ?_, ?_, ?_, ?_, ?_, ?_⟩
    · -- atom
      intro ts ts' h
      rw [atom_succ] at h
      split at h
      · obtain ⟨ts1, hm1, h2⟩ := ebind_ok_inv h
        obtain ⟨ts2, he, hm2⟩ := ebind_ok_inv h2
        obtain ⟨t, rfl, hkt⟩ := pmatch_ok_inv _ _ _ hm1
        obtain ⟨preE, rfl, hpneE, hxorE⟩ := ihExpr _ _ he
        obtain ⟨t2, rfl, hkt2⟩ := pmatch_ok_inv _ _ _ hm2
        refine ⟨t :: (preE ++ [t2]), by simp, by simp, ?_⟩
        intro hmem
        rcases List.mem_cons.mp hmem with h1 | h1
        · exact tok_ne_xor t _ hkt (by decide) h1.symm
        rcases List.mem_append.mp h1 with h2 | h2
        · exact hxorE h2
        rcases List.mem_cons.mp h2 with h3 | h3
        · exact tok_ne_xor t2 _ hkt2 (by decide) h3.symm
        simp at h3
      · split at h
        · obtain ⟨t, rfl, hkt⟩ := pmatch_ok_inv _ _ _ h
          refine ⟨[t], rfl, by simp, ?_⟩
          intro hmem
          simp only [List.mem_singleton] at hmem
          exact tok_ne_xor t _ hkt (by decide) hmem.symm
        · split at h
          · obtain ⟨t, rfl, hkt⟩ := pmatch_ok_inv _ _ _ h
            refine ⟨[t], rfl, by simp, ?_⟩
            intro hmem
            simp only [List.mem_singleton] at hmem
            exact tok_ne_xor t _ hkt (by decide) hmem.symm
          · cases h
    · -- atomTail
      intro ts ts' h
      rw [atomTail_succ] at h
      split at h
      · obtain ⟨ts1, hm1, h2⟩ := ebind_ok_inv h
        obtain ⟨ts2, ha, ht2⟩ := ebind_ok_inv h2
        obtain ⟨t, rfl, hkt⟩ := pmatch_ok_inv _ _ _ hm1
        obtain ⟨preA, rfl, hpneA, hxorA⟩ := ihAtom _ _ ha
        obtain ⟨preT, rfl, hxorT⟩ := ihAtomTail _ _ ht2
        refine ⟨t :: (preA ++ preT), by simp, ?_⟩
        intro hmem
        simp only [List.mem_cons, List.mem_append] at hmem
        rcases hmem with hmem | hmem | hmem
        · exact tok_ne_xor t _ hkt (by decide) hmem.symm
        · exact hxorA hmem
        · exact hxorT hmem
      · split at h
        · cases h
          exact ⟨[], rfl, by simp⟩
        · cases h
    · -- factor
      intro ts ts' h
      rw [factor_succ] at h
      split at h
      · obtain ⟨ts1, ha, ht⟩ := ebind_ok_inv h
        obtain ⟨preA, rfl, hpneA, hxorA⟩ := ihAtom _ _ ha
        obtain ⟨preT, rfl, hxorT⟩ := ihAtomTail _ _ ht
        refine ⟨preA ++ preT, by simp, by simp [hpneA], ?_⟩
        intro hmem
        simp only [List.mem_append] at hmem
        rcases hmem with hmem | hmem
        · exact hxorA hmem
        · exact hxorT hmem
      · cases h
    · -- factorTail
      intro ts ts' h
      rw [factorTail_succ] at h
      split at h
      · obtain ⟨ts1, hm1, h2⟩ := ebind_ok_inv h
        obtain ⟨ts2, hf, ht2⟩ := ebind_ok_inv h2
        obtain ⟨t, rfl, hkt⟩ := pmatch_ok_inv _ _ _ hm1
        obtain ⟨preF, rfl, hpneF, hxorF⟩ := ihFactor _ _ hf
        obtain ⟨preT, rfl, hxorT⟩ := ihFactorTail _ _ ht2
        refine ⟨t :: (preF ++ preT), by simp, ?_⟩
        intro hmem
        simp only [List.mem_cons, List.mem_append] at hmem
        rcases hmem with hmem | hmem | hmem
        · exact tok_ne_xor t _ hkt (by decide) hmem.symm
        · exact hxorF hmem
        · exact hxorT hmem
      · split at h
        · cases h
          exact ⟨[], rfl, by simp⟩
        · cases h
    · -- term
      intro ts ts' h
      rw [term_unfold] at h
      split at h
      · obtain ⟨ts1, hf, ht⟩ := ebind_ok_inv h
        obtain ⟨preF, rfl, hpneF, hxorF⟩ := ihFactor _ _ hf
        obtain ⟨preT, rfl, hxorT⟩ := ihFactorTail _ _ ht
        refine ⟨preF ++ preT, by simp, by simp [hpneF], ?_⟩
        intro hmem
        simp only [List.mem_append] at hmem
        rcases hmem with hmem | hmem
        · exact hxorF hmem
        · exact hxorT hmem
      · cases h
    · -- expr
      intro ts ts' h
      rw [expr_unfold] at h
      split at h
      · exact ihTerm _ _ h
      · cases h
    · -- stmt
      intro ts ts' h
      rw [stmt_succ] at h
      split at h
      · obtain ⟨ts1, hm1, h2⟩ := ebind_ok_inv h
        obtain ⟨ts2, hm2, he⟩ := ebind_ok_inv h2
        obtain ⟨t, rfl, hkt⟩ := pmatch_ok_inv _ _ _ hm1
        obtain ⟨t2, rfl, hkt2⟩ := pmatch_ok_inv _ _ _ hm2
        obtain ⟨preE, rfl, hpneE, hxorE⟩ := ihExpr _ _ he
        refine ⟨t :: t2 :: preE, by simp, by simp, ?_⟩
        intro hmem
        simp only [List.mem_cons] at hmem
        rcases hmem with hmem | hmem | hmem
        · exact tok_ne_xor t _ hkt (by decide) hmem.symm
        · exact tok_ne_xor t2 _ hkt2 (by decide) hmem.symm
        · exact hxorE hmem
      · split at h
        · obtain ⟨ts1, hm1, he⟩ := ebind_ok_inv h
          obtain ⟨t, rfl, hkt⟩ := pmatch_ok_inv _ _ _ hm1
          obtain ⟨preE, rfl, hpneE, hxorE⟩ := ihExpr _ _ he
          refine ⟨t :: preE, by simp, by simp, ?_⟩
          intro hmem
          simp only [List.mem_cons] at hmem
          rcases hmem with hmem | hmem
          · exact tok_ne_xor t _ hkt (by decide) hmem.symm
          · exact hxorE hmem
        · cases h
    · -- stmtList
      intro ts ts' h
      rw [stmtList_succ] at h
      split at h
      · obtain ⟨ts1, hs, hl⟩ := ebind_ok_inv h
        obtain ⟨preS, rfl, hpneS, hxorS⟩ := ihStmt _ _ hs
        obtain ⟨hnil, hxorL⟩ := ihStmtList _ _ hl
        refine ⟨hnil, ?_⟩
        intro hmem
        simp only [List.mem_append] at hmem
        rcases hmem with hmem | hmem
        · exact hxorS hmem
        · exact hxorL hmem
      · split at h
        · rename_i hnone
          cases h
          have hts : ts = [] := by
            cases ts with
            | nil => rfl
            | cons t rest => simp [laKind] at hnone
          exact ⟨hts, by simp [hts]⟩
        · cases h
end ParserPy

namespace ParserPy

open Mini

theorem pmatch_ne_fuelOut (k : Kind) (ts : List Tok) : pmatch k ts ≠ .error .fuelOut := by
  cases ts with
  | nil => intro h; cases h
  | cons t rest =>
    simp only [pmatch]
    split
    · intro h; cases h
    · intro h; cases h

theorem ebind_fuelOut_inv {α β : Type} {ma : Except PErr α} {k : α → Except PErr β}
    (h : ma.bind k = .error .fuelOut) :
    ma = .error .fuelOut ∨ ∃ a, ma = .ok a ∧ k a = .error .fuelOut := by
  cases ma with
  | error e =>
    left
    have he : e = PErr.fuelOut := by
      have h' : (Except.error e : Except PErr β) = .error .fuelOut := h
      injection h'
    rw [he]
  | ok a => exact Or.inr ⟨a, rfl, h⟩

theorem length_lt_of_consumed {ts ts' pre : List Tok} (hpre : ts = pre ++ ts')
    (hne : pre ≠ []) : ts'.length < ts.length := by
  subst hpre
  have : 0 < pre.length := List.length_pos.mpr hne
  simp only [List.length_append]
  omega

theorem pSuffInv_all : ∀ f, PSuffInv f := by
  intro f
  induction f using Nat.strong_induction_on with
  | _ f ihf =>
    match f with
    | 0 =>
      refine ⟨?_, ?_, ?_, ?_, ?_, ?_, ?_, ?_⟩ <;> (intro ts hlt; omega)
    | f' + 1 =>
      obtain ⟨ihAtom, ihAtomTail, ihFactor, ihFactorTail, ihTerm, ihExpr, ihStmt, ihStmtList⟩ :=
        ihf f' (Nat.lt_succ_self f')
      obtain ⟨okAtom, okAtomTail, okFactor, okFactorTail, okTerm, okExpr, okStmt, okStmtList⟩ :=
        pOkInv_all f'
      refine ⟨?_, ?_, ?_, ?_, ?_, ?_, ?_, ?_⟩
      · -- atom
        intro ts hlt hcontra
        rw [atom_succ] at hcontra
        split at hcontra
        · rcases ebind_fuelOut_inv hcontra with hm | ⟨ts1, hm, h2⟩
          · exact pmatch_ne_fuelOut _ _ hm
          · obtain ⟨t, rfl, -⟩ := pmatch_ok_inv _ _ _ hm
            rcases ebind_fuelOut_inv h2 with he | ⟨ts2, he, hm2⟩
            · refine ihExpr ts1 (by simp only [List.length_cons] at hlt; omega) he
            · exact pmatch_ne_fuelOut _ _ hm2
        · split at hcontra
          · exact pmatch_ne_fuelOut _ _ hcontra
          · split at hcontra
            · exact pmatch_ne_fuelOut _ _ hcontra
            · cases hcontra
      · -- atomTail
        intro ts hlt hcontra
        rw [atomTail_succ] at hcontra
        split at hcontra
        · rcases ebind_fuelOut_inv hcontra with hm | ⟨ts1, hm, h2⟩
          · exact pmatch_ne_fuelOut _ _ hm
          · obtain ⟨t, rfl, -⟩ := pmatch_ok_inv _ _ _ hm
            rcases ebind_fuelOut_inv h2 with ha | ⟨ts2, ha, ht2⟩
            · exact ihAtom ts1 (by simp only [List.length_cons] at hlt; omega) ha
            · obtain ⟨pre, hpre, hpne, -⟩ := okAtom _ _ ha
              have hlen := length_lt_of_consumed hpre hpne
              refine ihAtomTail ts2 ?_ ht2
              simp only [List.length_cons] at hlt
              omega
        · split at hcontra
          · cases hcontra
          · cases hcontra
      · -- factor
        intro ts hlt hcontra
        rw [factor_succ] at hcontra
        split at hcontra
        · rcases ebind_fuelOut_inv hcontra with ha | ⟨ts1, ha, ht⟩
          · exact ihAtom ts (by omega) ha
          · obtain ⟨pre, hpre, hpne, -⟩ := okAtom _ _ ha
            have hlen := length_lt_of_consumed hpre hpne
            refine ihAtomTail ts1 ?_ ht
            omega
        · cases hcontra
      · -- factorTail
        intro ts hlt hcontra
        rw [factorTail_succ] at hcontra
        split at hcontra
        · rcases ebind_fuelOut_inv hcontra with hm | ⟨ts1, hm, h2⟩
          · exact pmatch_ne_fuelOut _ _ hm
          · obtain ⟨t, rfl, -⟩ := pmatch_ok_inv _ _ _ hm
            rcases ebind_fuelOut_inv h2 with hf | ⟨ts2, hf, ht2⟩
            · exact ihFactor ts1 (by simp only [List.length_cons] at hlt; omega) hf
            · obtain ⟨pre, hpre, hpne, -⟩ := okFactor _ _ hf
              have hlen := length_lt_of_consumed hpre hpne
              refine ihFactorTail ts2 ?_ ht2
              simp only [List.length_cons] at hlt
              omega
        · split at hcontra
          · cases hcontra
          · cases hcontra
      · -- term
        intro ts hlt hcontra
        rw [term_unfold] at hcontra
        split at hcontra
        · rcases ebind_fuelOut_inv hcontra with hf | ⟨ts1, hf, ht⟩
          · exact ihFactor ts (by omega) hf
          · obtain ⟨pre, hpre, hpne, -⟩ := okFactor _ _ hf
            have hlen := length_lt_of_consumed hpre hpne
            refine ihFactorTail ts1 ?_ ht
            omega
        · cases hcontra
      · -- expr
        intro ts hlt hcontra
        rw [expr_unfold] at hcontra
        split at hcontra
        · exact ihTerm ts (by omega) hcontra
        · cases hcontra
      · -- stmt
        intro ts hlt hcontra
        rw [stmt_succ] at hcontra
        split at hcontra
        · rcases ebind_fuelOut_inv hcontra with hm | ⟨ts1, hm, h2⟩
          · exact pmatch_ne_fuelOut _ _ hm
          · obtain ⟨t, rfl, -⟩ := pmatch_ok_inv _ _ _ hm
            rcases ebind_fuelOut_inv h2 with hm2 | ⟨ts2, hm2, he⟩
            · exact pmatch_ne_fuelOut _ _ hm2
            · obtain ⟨t2, rfl, -⟩ := pmatch_ok_inv _ _ _ hm2
              refine ihExpr ts2 ?_ he
              simp only [List.length_cons] at hlt
              omega
        · split at hcontra
          · rcases ebind_fuelOut_inv hcontra with hm | ⟨ts1, hm, he⟩
            · exact pmatch_ne_fuelOut _ _ hm
            · obtain ⟨t, rfl, -⟩ := pmatch_ok_inv _ _ _ hm
              refine ihExpr ts1 ?_ he
              simp only [List.length_cons] at hlt
              omega
          · cases hcontra
      · -- stmtList
        intro ts hlt hcontra
        rw [stmtList_succ] at hcontra
        split at hcontra
        · rcases ebind_fuelOut_inv hcontra with hs | ⟨ts1, hs, hl⟩
          · exact ihStmt ts (by omega) hs
          · obtain ⟨pre, hpre, hpne, -⟩ := okStmt _ _ hs
            have hlen := length_lt_of_consumed hpre hpne
            refine ihStmtList ts1 ?_ hl
            omega
        · split at hcontra
          · cases hcontra
          · cases hcontra

end ParserPy

open Mini in
/-- Claim C10: in `parser.py`, `expr` reads `self.term_tail` without
calling it (the call parentheses are missing), so the match call for xor
is unreachable and no grammar procedure ever consumes an xor token.
Consequently every scannable input containing xor makes the parse entry
point raise ParseError: a pending xor survives to be rejected either by
the enclosing statement list or by a match call such as the one for the
closing parenthesis. -/
theorem c10_xor_always_parse_error (ts : List Tok)
    (hbad : Tok.badChar ∉ ts) (hxor : Tok.kwXor ∈ ts) :
    ∃ msg, ParserPy.parse ts = .error (.parseErr msg) := by
  cases hres : ParserPy.parse ts with
  | ok ts' =>
    exfalso
    have hinv := (ParserPy.pOkInv_all (10 * ts.length + 10)).2.2.2.2.2.2.2
    obtain ⟨-, hnoxor⟩ := hinv ts ts' hres
    exact hnoxor hxor
  | error e =>
    cases e with
    | parseErr msg => exact ⟨msg, rfl⟩
    | fuelOut =>
      exfalso
      have hsuff := (ParserPy.pSuffInv_all (10 * ts.length + 10)).2.2.2.2.2.2.2
      exact hsuff ts (by omega) hres

open Mini in
theorem c10_xor_always_parse_error_witness :
    ∃ msg, ParserPy.parse [Tok.kwPrint, Tok.num ['1'], Tok.kwXor, Tok.num ['1']]
      = .error (.parseErr msg) :=
  c10_xor_always_parse_error [Tok.kwPrint, Tok.num ['1'], Tok.kwXor, Tok.num ['1']]
    (by decide) (by decide)
